import Mathlib

/-!
Shallow embedding of the gypstats repository (goldprice.py, plot.py,
update.py): the metal_prices SQLite store, the MetalpriceAPI fetch
pipeline, the NBP USD/PLN join of plot.py and the date driver of
update.py.  Python floats are modelled as exact rationals, SQLite
tables as lists of rows, and HTTP as an explicit response value.
-/

section MetalPrices

/-- A row of the `metal_prices` table (goldprice.py, `ensure_table`):
date, base, symbol, rate (NOT NULL), optional xauusd, source and the
raw JSON payload.  The payload is stored via `json.dumps` and read back
via `json.loads`; that round trip is modelled as storing the payload
itself, of an arbitrary type `ρ`. -/
structure MRow (ρ : Type) where
  date : String
  base : String
  symbol : String
  rate : ℚ
  xauusd : Option ℚ
  source : String
  raw : ρ
deriving DecidableEq

variable {ρ : Type}

/-- The primary key of `metal_prices`: `(date, base, symbol, source)`. -/
def keyOf (r : MRow ρ) : String × String × String × String :=
  (r.date, r.base, r.symbol, r.source)

/-- Whether two rows collide on the primary key. -/
def sameKey (a c : MRow ρ) : Bool :=
  decide (keyOf a = keyOf c)

/-- SQL `SELECT ... WHERE date = ? AND base = ? AND symbol = ? AND source = ?`,
returning the first matching row (under key uniqueness, the row). -/
def lookupKey : List (MRow ρ) → String × String × String × String → Option (MRow ρ)
  | [], _ => none
  | r :: rest, k => if keyOf r = k then some r else lookupKey rest k

/-- goldprice.py `get_cached_price`: select `(rate, raw_json, xauusd)` for
the key and return the triple (raw json decoded back to the payload). -/
def get_cached_price (t : List (MRow ρ)) (k : String × String × String × String) :
    Option (ℚ × ρ × Option ℚ) :=
  (lookupKey t k).map fun r => (r.rate, r.raw, r.xauusd)

/-- goldprice.py `insert_price`: `INSERT OR REPLACE` on the primary key —
SQLite deletes any row with the same key and inserts the new one. -/
def insert_price (r : MRow ρ) (t : List (MRow ρ)) : List (MRow ρ) :=
  r :: t.filter (fun x => !(sameKey x r))

/-- A sequence of `insert_price` calls applied in order. -/
def applyInserts (rs : List (MRow ρ)) (t : List (MRow ρ)) : List (MRow ρ) :=
  rs.foldl (fun acc x => insert_price x acc) t

/-- The table holds at most one row per `(date, base, symbol, source)`. -/
def UniqueKeys (t : List (MRow ρ)) : Prop :=
  t.Pairwise (fun a c => keyOf a ≠ keyOf c)

/-- The per-row effect of goldprice.py `fill_missing_xauusd`
(`UPDATE metal_prices SET xauusd = CASE ... END WHERE xauusd IS NULL AND
((base='USD' AND symbol='XAU') OR (base='XAU' AND symbol='USD'))`).
SQLite evaluates `1.0 / rate` to NULL when `rate = 0`, hence the guard. -/
def fillRow (r : MRow ρ) : MRow ρ :=
  if r.xauusd = none then
    if r.base = "USD" ∧ r.symbol = "XAU" then
      { r with xauusd := if r.rate = 0 then none else some (1 / r.rate) }
    else if r.base = "XAU" ∧ r.symbol = "USD" then
      { r with xauusd := some r.rate }
    else r
  else r

/-- goldprice.py `fill_missing_xauusd` over the whole table. -/
def fill_missing_xauusd (t : List (MRow ρ)) : List (MRow ρ)
  := t.map fillRow

/-- Python `str.upper()` (character-wise uppercasing; the program only
uses it on ASCII currency codes). -/
def pyUpper (s : String) : String :=
  ⟨s.data.map Char.toUpper⟩

/-- The xauusd derivation inside goldprice.py `fetch_one` (lines 240-244):
`1.0/rate` when base/symbol is USD/XAU and `rate` is truthy (nonzero),
`rate` itself when base/symbol is XAU/USD, otherwise left unset. -/
def computeXauusd (base symbol : String) (rate : ℚ) : Option ℚ :=
  if pyUpper base = "USD" ∧ pyUpper symbol = "XAU" ∧ rate ≠ 0 then some (1 / rate)
  else if pyUpper base = "XAU" ∧ pyUpper symbol = "USD" then some rate
  else none

end MetalPrices

section ApiModel

/-- The JSON body of a MetalpriceAPI response, as far as goldprice.py
reads it: an optional `success` field (absent or a boolean) and the
rate map (`rates`; the alternative `rate` spelling is collapsed into
the same field). -/
structure ApiData where
  success : Option Bool
  rates : List (String × ℚ)
deriving DecidableEq

/-- The body attached to an `urllib.error.HTTPError`: empty, nonempty
but not valid JSON, or parsed JSON. -/
inductive ErrBody
  | empty
  | unparseable
  | parsed (d : ApiData)
deriving DecidableEq

/-- The outcome of the HTTP request made by goldprice.py `fetch_price`:
a 2xx response with a JSON body, or an `HTTPError` with a status code
and a body. -/
inductive HttpResponse
  | ok (d : ApiData)
  | httpError (code : Int) (body : ErrBody)
deriving DecidableEq

/-- goldprice.py `fetch_price`: return the response JSON; on `HTTPError`,
return the error body if it parses as JSON, otherwise a synthesized
`{"success": false, "error": ...}` dictionary. -/
def fetch_price : HttpResponse → ApiData
  | .ok d => d
  | .httpError _ (.parsed d) => d
  | .httpError _ _ => ⟨some false, []⟩

/-- Python `data.get("success", True)`. -/
def getSuccess (d : ApiData) : Bool :=
  d.success.getD true

/-- Association-list lookup for the rates map (first binding wins, as in
a Python dict read). -/
def lookupStr (m : List (String × ℚ)) (k : String) : Option ℚ :=
  match m with
  | [] => none
  | (k0, v) :: rest => if k0 = k then some v else lookupStr rest k

/-- goldprice.py `extract_rate`: `rates[symbol]` when present, else the
`USD{symbol}`-style key. -/
def extract_rate (d : ApiData) (symbol : String) : Option ℚ :=
  match lookupStr d.rates symbol with
  | some r => some r
  | none => lookupStr d.rates ("USD" ++ symbol)

/-- What one goldprice.py `fetch_one(date_str)` call did: its boolean
return value, the table it leaves behind, whether it issued an HTTP
request, and whether it printed an error line to stderr. -/
structure FetchOutcome where
  ok : Bool
  table : List (MRow ApiData)
  apiCalled : Bool
  errorPrinted : Bool
deriving DecidableEq

/-- goldprice.py `fetch_one` (closure in `main`).  `useDb` is the truth
of `args.sqlite`, `useCache` of `DEFAULT_CACHE and not args.no_cache`.
When both hold, the call first runs `fill_missing_xauusd` on the table
and looks up the cache key; a hit supplies `rate`, `data` and `xauusd`
with no HTTP request.  Otherwise `fetch_price` supplies `data`.  A
`success=false` payload or a missing rate prints an error and returns
False; otherwise the missing xauusd is derived and, when `useDb`, the
row is upserted via `insert_price`. -/
def fetch_one (useDb useCache : Bool) (t : List (MRow ApiData))
    (dstr base symbol source : String) (resp : HttpResponse) : FetchOutcome :=
  let consult := useDb && useCache
  let t1 := if consult then fill_missing_xauusd t else t
  let cached := if consult then get_cached_price t1 (dstr, base, symbol, source) else none
  match cached with
  | some (rate, data, xau0) =>
    if getSuccess data = false then
      { ok := false, table := t1, apiCalled := false, errorPrinted := true }
    else
      let xau := match xau0 with
        | some x => some x
        | none => computeXauusd base symbol rate
      if useDb then
        { ok := true, table := insert_price ⟨dstr, base, symbol, rate, xau, source, data⟩ t1,
          apiCalled := false, errorPrinted := false }
      else
        { ok := true, table := t1, apiCalled := false, errorPrinted := false }
  | none =>
    let data := fetch_price resp
    if getSuccess data = false then
      { ok := false, table := t1, apiCalled := true, errorPrinted := true }
    else
      match extract_rate data symbol with
      | none => { ok := false, table := t1, apiCalled := true, errorPrinted := true }
      | some rate =>
        let xau := computeXauusd base symbol rate
        if useDb then
          { ok := true, table := insert_price ⟨dstr, base, symbol, rate, xau, source, data⟩ t1,
            apiCalled := true, errorPrinted := false }
        else
          { ok := true, table := t1, apiCalled := true, errorPrinted := false }

end ApiModel

section PlotModel

/-- The `usd_cache` dictionary of plot.py `write_gspln_db`: date ↦
cached NBP answer, where `none` records a cached HTTPError (no fixing).
Newer bindings are consed in front. -/
abbrev UsdCache := List (Int × Option ℚ)

/-- Dictionary read for the cache (first binding wins). -/
def cacheLookup (cache : UsdCache) (d : Int) : Option (Option ℚ) :=
  match cache with
  | [] => none
  | (d0, v) :: rest => if d0 = d then some v else cacheLookup rest d

/-- plot.py `fetch_usdpln`: answer from the cache when present;
otherwise ask the NBP API (`nbp d = some rate` for a published fixing,
`none` for the 404 of a missing one) and cache the answer either way.
Returns the rate (or `None`) together with the updated cache. -/
def fetch_usdpln (nbp : Int → Option ℚ) (d : Int) (cache : UsdCache) :
    Option ℚ × UsdCache :=
  match cacheLookup cache d with
  | some v => (v, cache)
  | none => (nbp d, (d, nbp d) :: cache)

/-- The `for _ in range(7)` fallback loop of plot.py `write_gspln_db`:
starting from `back`, repeatedly step one day back and fetch, stopping
at the first day with a fixing. -/
def fallbackLoop (nbp : Int → Option ℚ) : Nat → Int → UsdCache → Option ℚ × UsdCache
  | 0, _, cache => (none, cache)
  | n + 1, back, cache =>
    match fetch_usdpln nbp (back - 1) cache with
    | (some r, c1) => (some r, c1)
    | (none, c1) => fallbackLoop nbp n (back - 1) c1

/-- The fetch performed by `write_gspln_db` for a date `d` whose PLN
columns are missing: try `d` itself, then up to 7 consecutive prior
days. -/
def fetchWithFallback (nbp : Int → Option ℚ) (d : Int) (cache : UsdCache) :
    Option ℚ × UsdCache :=
  match fetch_usdpln nbp d cache with
  | (some r, c1) => (some r, c1)
  | (none, c1) => fallbackLoop nbp 7 d c1

/-- A row of the `gsp` table of GSPLN.db (plot.py `ensure_gsp_table`). -/
structure GspRow where
  date : Int
  xauusd : ℚ
  xagusd : ℚ
  gsr : ℚ
  usdpln : Option ℚ
  xaupln : Option ℚ
  xagpln : Option ℚ
deriving DecidableEq

/-- One iteration of the `for d, g, s in zip(dates, xauusd, xagusd)`
loop of plot.py `write_gspln_db`.  `existing d` is the
`existing.get(d, (None, None, None))` triple read from the current gsp
table.  A falsy (zero) silver price skips the date; complete existing
PLN columns are kept as they are; otherwise the fixing is fetched with
fallback and the PLN columns derived from it (or all left NULL). -/
def processRow (nbp : Int → Option ℚ)
    (existing : Int → Option ℚ × Option ℚ × Option ℚ)
    (cache : UsdCache) (d : Int) (g s : ℚ) : Option GspRow × UsdCache :=
  if s = 0 then (none, cache)
  else
    if (existing d).1 = none ∨ (existing d).2.1 = none ∨ (existing d).2.2 = none then
      match fetchWithFallback nbp d cache with
      | (some u, c1) => (some ⟨d, g, s, g / s, some u, some (g * u), some (s * u)⟩, c1)
      | (none, c1) => (some ⟨d, g, s, g / s, none, none, none⟩, c1)
    else
      (some ⟨d, g, s, g / s, (existing d).1, (existing d).2.1, (existing d).2.2⟩, cache)

/-- The whole loop of plot.py `write_gspln_db` over the zipped joined
series, threading `usd_cache` and collecting the `rows` list that is
then written to `gsp` with `INSERT OR REPLACE` (keyed by date). -/
def write_gspln_rows (nbp : Int → Option ℚ)
    (existing : Int → Option ℚ × Option ℚ × Option ℚ) :
    List (Int × ℚ × ℚ) → UsdCache → List GspRow × UsdCache
  | [], cache => ([], cache)
  | (d, g, s) :: rest, cache =>
    match processRow nbp existing cache d g s with
    | (some row, c1) =>
      match write_gspln_rows nbp existing rest c1 with
      | (rows, c2) => (row :: rows, c2)
    | (none, c1) => write_gspln_rows nbp existing rest c1

/-- The tail of plot.py `derivative`: successive differences against the
previous element. -/
def diffsFrom : ℚ → List ℚ → List ℚ
  | _, [] => []
  | prev, x :: rest => (x - prev) :: diffsFrom x rest

/-- plot.py `derivative`: `[]` for an empty series, else `0.0` followed
by the first differences `s[i] - s[i-1]`. -/
def derivative (series : List ℚ) : List ℚ :=
  match series with
  | [] => []
  | x :: rest => 0 :: diffsFrom x rest

/-- plot.py `normalize`: an empty series or one starting with `0` is
returned unchanged, else every element is divided by the first.
(Named `normalizeSeries` here because `normalize` already exists in
Mathlib's root namespace.) -/
def normalizeSeries (series : List ℚ) : List ℚ :=
  match series with
  | [] => []
  | x :: rest => if x = 0 then x :: rest else (x :: rest).map (· / x)

end PlotModel

section UpdateModel

/-- update.py `MIN_DATE = date(2026, 1, 2)`, as the proleptic Gregorian
ordinal used by Python's `date.toordinal` (2026-01-01 is day 739617). -/
def MIN_DATE : Int := 739618

/-- update.py `get_latest_date`: `SELECT MAX(date)` over `metal_prices`,
`None` for an absent or empty database (modelled as the empty list). -/
def get_latest_date (db : List Int) : Option Int :=
  db.max?

/-- The dates goldprice.py `main` iterates over when invoked with
`--start`/`--end` (update.py `run_range` refuses an empty range, and the
`while cur <= end_dt` loop walks one day at a time). -/
def run_range_dates (s e : Int) : List Int :=
  if e < s then [] else (List.range (e + 1 - s).toNat).map (fun i : Nat => s + (i : Int))

/-- The start date update.py `main` computes for one metal:
`MIN_DATE if not latest else latest + timedelta(days=1)`. -/
def updStart (db : List Int) : Int :=
  match get_latest_date db with
  | none => MIN_DATE
  | some l => l + 1

/-- update.py `main` for one metal: nothing when yesterday precedes
`MIN_DATE`; otherwise request from the day after the latest stored date
(or `MIN_DATE` for an absent/empty database) through yesterday, and
nothing when that range is empty. -/
def update_requests (db : List Int) (today : Int) : List Int :=
  let yesterday := today - 1
  if yesterday < MIN_DATE then []
  else if updStart db ≤ yesterday then run_range_dates (updStart db) yesterday
  else []

end UpdateModel

section UrlModel

/-- The replacement string `"****"` of goldprice.py `mask_key`. -/
def starsMask : List Char := ['*', '*', '*', '*']

/-- Whether `key` occurs at the very start of `s` (the per-position test
of Python's substring search). -/
def prefChk : List Char → List Char → Bool
  | [], _ => true
  | _ :: _, [] => false
  | a :: as, b :: bs => a == b && prefChk as bs

/-- Whether `key` occurs anywhere in `s` (Python `key in s`). -/
def occursIn (key : List Char) : List Char → Bool
  | [] => key.isEmpty
  | c :: rest => prefChk key (c :: rest) || occursIn key rest

/-- Python `s.replace(key, rep)`: scan left to right, replace each
non-overlapping occurrence and continue after it.  The structural `fuel`
argument (instantiated with `s.length`, an upper bound on the number of
scan steps for a nonempty `key`) makes the recursion structural. -/
def replaceAllF (key rep : List Char) : Nat → List Char → List Char
  | 0, s => s
  | fuel + 1, s =>
    match s with
    | [] => []
    | c :: rest =>
      if prefChk key (c :: rest) then
        rep ++ replaceAllF key rep fuel ((c :: rest).drop key.length)
      else
        c :: replaceAllF key rep fuel rest

/-- Python `s.replace(key, rep)` (for nonempty `key`). -/
def replaceAll (key rep s : List Char) : List Char :=
  replaceAllF key rep s.length s

/-- goldprice.py `mask_key`: when `API_KEY` is nonempty, replace every
occurrence of it in the URL by `"****"`; a falsy (empty) key leaves the
URL unchanged. -/
def mask_key (apiKey url : List Char) : List Char :=
  if apiKey.isEmpty then url else replaceAll apiKey starsMask url

/-- RFC 3986 unreserved characters, the ones `urllib.parse.quote_plus`
leaves as they are. -/
def isUnres (c : Char) : Bool :=
  c.isAlpha || c.isDigit || c == '_' || c == '.' || c == '-' || c == '~'

/-- Uppercase hexadecimal digit, as used by `quote_plus` percent
escapes. -/
def hexDig (n : Nat) : Char :=
  if n < 10 then Char.ofNat (48 + n) else Char.ofNat (55 + n)

/-- Python `urllib.parse.quote_plus` on one character: unreserved characters
kept, a space becomes `+`, anything else is percent-encoded (given here
for the single-byte ASCII range the program uses). -/
def quotePlusChar (c : Char) : List Char :=
  if isUnres c then [c]
  else if c == ' ' then ['+']
  else ['%', hexDig (c.toNat / 16 % 16), hexDig (c.toNat % 16)]

/-- Python `urllib.parse.quote_plus` on a string. -/
def quotePlus : List Char → List Char
  | [] => []
  | c :: rest => quotePlusChar c ++ quotePlus rest

/-- goldprice.py `build_url`: `f"{BASE_URL}/{date_str}?{query}"` with
`query = urlencode({"api_key": API_KEY, "base": base, "currencies":
symbol})` (urlencode keeps the dict order and quote_plus-encodes each
value). -/
def build_url (apiKey dateStr base symbol : List Char) : List Char :=
  "https://api.metalpriceapi.com/v1/".toList ++ dateStr ++ "?".toList ++
    "api_key=".toList ++ quotePlus apiKey ++
    "&base=".toList ++ quotePlus base ++
    "&currencies=".toList ++ quotePlus symbol

end UrlModel

section DerivativeProofs

lemma diffsFrom_length (p : ℚ) (l : List ℚ) : (diffsFrom p l).length = l.length := by
  induction l generalizing p with
  | nil => rfl
  | cons x rest ih => simp [diffsFrom, ih]

lemma diffsFrom_getD (x : ℚ) (l : List ℚ) :
    ∀ j, j < l.length → (diffsFrom x l).getD j 0 = l.getD j 0 - (x :: l).getD j 0 := by
  induction l generalizing x with
  | nil => intro j hj; simp at hj
  | cons y rest ih =>
    intro j hj
    cases j with
    | zero => simp [diffsFrom]
    | succ i =>
      simp only [diffsFrom, List.getD_cons_succ]
      exact ih y i (by simpa using hj)

/-- C6: plot.py `derivative` returns the empty list on the empty list;
on a non-empty series it preserves the length, starts with 0.0, and its
i-th element (i ≥ 1) is the first difference `s[i] - s[i-1]`. -/
theorem derivative_first_difference (s : List ℚ) (hs : s ≠ []) :
    derivative ([] : List ℚ) = [] ∧
    (derivative s).length = s.length ∧
    (derivative s).headD 0 = 0 ∧
    ∀ i, 1 ≤ i → i < s.length →
      (derivative s).getD i 0 = s.getD i 0 - s.getD (i - 1) 0 := by
  obtain ⟨x, rest, rfl⟩ := List.exists_cons_of_ne_nil hs
  refine ⟨rfl, by simp [derivative, diffsFrom_length], rfl, ?_⟩
  intro i h1 h2
  obtain ⟨j, rfl⟩ : ∃ j, i = j + 1 := ⟨i - 1, by omega⟩
  simp only [derivative, List.getD_cons_succ, Nat.add_sub_cancel]
  exact diffsFrom_getD x rest j (by simpa using h2)

/-- Witness for C6 at the concrete series `[3, 5, 4]`. -/
theorem derivative_first_difference_witness :
    ([3, 5, 4] : List ℚ) ≠ [] ∧
    (derivative ([] : List ℚ) = [] ∧
      (derivative [3, 5, 4]).length = ([3, 5, 4] : List ℚ).length ∧
      (derivative [3, 5, 4]).headD 0 = 0 ∧
      ∀ i, 1 ≤ i → i < ([3, 5, 4] : List ℚ).length →
        (derivative [3, 5, 4]).getD i 0 =
          ([3, 5, 4] : List ℚ).getD i 0 - ([3, 5, 4] : List ℚ).getD (i - 1) 0) :=
  ⟨by simp, derivative_first_difference [3, 5, 4] (by simp)⟩

/-- C7: plot.py `normalize` leaves the empty list and a list with first
element 0 unchanged (never dividing by zero); otherwise it preserves the
length, maps the i-th element to `s[i] / s[0]`, and starts with 1. -/
theorem normalize_divides_by_first (s : List ℚ) :
    normalizeSeries ([] : List ℚ) = [] ∧
    (s.headD 0 = 0 → normalizeSeries s = s) ∧
    (s ≠ [] → s.headD 0 ≠ 0 →
      (normalizeSeries s).length = s.length ∧
      (normalizeSeries s).headD 0 = 1 ∧
      ∀ i, i < s.length → (normalizeSeries s).getD i 0 = s.getD i 0 / s.headD 0) := by
  refine ⟨rfl, ?_, ?_⟩
  · intro h0
    cases s with
    | nil => rfl
    | cons x rest =>
      simp only [List.headD_cons] at h0
      simp [normalizeSeries, h0]
  · intro hne h0
    obtain ⟨x, rest, rfl⟩ := List.exists_cons_of_ne_nil hne
    simp only [List.headD_cons] at h0
    refine ⟨by simp [normalizeSeries, h0], by simp [normalizeSeries, h0, div_self h0], ?_⟩
    intro i hi
    simp only [normalizeSeries, if_neg h0, List.headD_cons]
    rw [List.getD_eq_getElem _ _ (by simpa using hi), List.getD_eq_getElem _ _ hi,
      List.getElem_map]

/-- Witness for C7 at the concrete series `[4, 2, 6]` (and `[0, 2]` for
the unchanged branch). -/
theorem normalize_divides_by_first_witness :
    (normalizeSeries ([] : List ℚ) = [] ∧
      (([4, 2, 6] : List ℚ).headD 0 = 0 → normalizeSeries [4, 2, 6] = [4, 2, 6]) ∧
      (([4, 2, 6] : List ℚ) ≠ [] → ([4, 2, 6] : List ℚ).headD 0 ≠ 0 →
        (normalizeSeries [4, 2, 6]).length = ([4, 2, 6] : List ℚ).length ∧
        (normalizeSeries [4, 2, 6]).headD 0 = 1 ∧
        ∀ i, i < ([4, 2, 6] : List ℚ).length →
          (normalizeSeries [4, 2, 6]).getD i 0 =
            ([4, 2, 6] : List ℚ).getD i 0 / ([4, 2, 6] : List ℚ).headD 0)) ∧
    normalizeSeries [0, 2] = ([0, 2] : List ℚ) :=
  ⟨normalize_divides_by_first [4, 2, 6],
    (normalize_divides_by_first [0, 2]).2.1 (by norm_num)⟩

end DerivativeProofs

section UpsertProofs

variable {ρ : Type}

lemma sameKey_iff (a c : MRow ρ) : sameKey a c = true ↔ keyOf a = keyOf c := by
  simp [sameKey]

lemma uniqueKeys_insert (r : MRow ρ) (t : List (MRow ρ)) (h : UniqueKeys t) :
    UniqueKeys (insert_price r t) := by
  unfold UniqueKeys insert_price
  refine List.pairwise_cons.2 ⟨?_, h.filter _⟩
  intro x hx
  have hk := List.of_mem_filter hx
  simp only [Bool.not_eq_true', ← Bool.not_eq_true, sameKey_iff] at hk
  exact fun he => hk he.symm

lemma uniqueKeys_applyInserts (rs : List (MRow ρ)) (t : List (MRow ρ)) (h : UniqueKeys t) :
    UniqueKeys (applyInserts rs t) := by
  induction rs generalizing t with
  | nil => exact h
  | cons r rest ih => exact ih _ (uniqueKeys_insert r t h)

lemma lookupKey_filter_ne (t : List (MRow ρ)) (r : MRow ρ) (k : String × String × String × String)
    (hk : k ≠ keyOf r) :
    lookupKey (t.filter (fun x => !(sameKey x r))) k = lookupKey t k := by
  induction t with
  | nil => rfl
  | cons a rest ih =>
    by_cases ha : sameKey a r = true
    · have hne : keyOf a ≠ k := by
        rw [sameKey_iff] at ha
        exact fun he => hk (he ▸ ha)
      simp [List.filter_cons, ha, lookupKey, hne, ih]
    · simp only [List.filter_cons, ha, Bool.not_false, if_true]
      unfold lookupKey
      by_cases he : keyOf a = k
      · simp [he]
      · simp [he, ih]

lemma lookupKey_filter_length (t : List (MRow ρ)) (k : String × String × String × String)
    (hu : UniqueKeys t) (hl : lookupKey t k ≠ none) :
    (t.filter (fun x => !(decide (keyOf x = k)))).length + 1 = t.length := by
  induction t with
  | nil => simp [lookupKey] at hl
  | cons a rest ih =>
    obtain ⟨hu1, hu2⟩ := List.pairwise_cons.1 hu
    by_cases he : keyOf a = k
    · have hall : ∀ x ∈ rest, (!(decide (keyOf x = k))) = true := by
        intro x hx
        simp only [Bool.not_eq_true', decide_eq_false_iff_not]
        exact fun hxk => (hu1 x hx) (he.trans hxk.symm)
      simp [List.filter_cons, he, List.filter_eq_self.2 hall]
    · have hl2 : lookupKey rest k ≠ none := by
        unfold lookupKey at hl
        simpa [he] using hl
      have := ih hu2 hl2
      simp only [List.filter_cons]
      rw [if_pos (by simp [he])]
      simp only [List.length_cons]
      omega

/-- C2: `insert_price` behaves as an upsert on the primary key
`(date, base, symbol, source)`: any sequence of inserts preserves at
most one row per key, inserting an existing key replaces the stored
rate/xauusd/raw values (the key now maps to the new row), rows under
other keys are untouched, and the row count does not grow when the key
already existed. -/
theorem insert_price_upsert (t : List (MRow ρ)) (r : MRow ρ) (rs : List (MRow ρ))
    (h : UniqueKeys t) :
    UniqueKeys (applyInserts rs t) ∧
    lookupKey (insert_price r t) (keyOf r) = some r ∧
    (∀ k, k ≠ keyOf r → lookupKey (insert_price r t) k = lookupKey t k) ∧
    (lookupKey t (keyOf r) ≠ none → (insert_price r t).length = t.length) := by
  have lookupKey_cons : ∀ (a : MRow ρ) (rest : List (MRow ρ)) (k : String × String × String × String),
      lookupKey (a :: rest) k = if keyOf a = k then some a else lookupKey rest k :=
    fun _ _ _ => rfl
  refine ⟨uniqueKeys_applyInserts rs t h, ?_, ?_, ?_⟩
  · simp [insert_price, lookupKey_cons]
  · intro k hk
    simp only [insert_price, lookupKey_cons]
    rw [if_neg (fun he => hk he.symm)]
    exact lookupKey_filter_ne t r k hk
  · intro hl
    have hfeq : t.filter (fun x => !(sameKey x r)) =
        t.filter (fun x => !(decide (keyOf x = keyOf r))) := by
      apply List.filter_congr
      intro x _
      simp [sameKey]
    have hlen := lookupKey_filter_length t (keyOf r) h hl
    simp only [insert_price, List.length_cons, hfeq]
    omega

/-- Witness for C2: a two-insert sequence under the same key on the
empty table. -/
theorem insert_price_upsert_witness :
    UniqueKeys ([] : List (MRow Nat)) ∧
    (UniqueKeys (applyInserts [⟨"d", "USD", "XAU", 2, none, "s", 7⟩,
        ⟨"d", "USD", "XAU", 3, some 9, "s", 8⟩] ([] : List (MRow Nat))) ∧
      lookupKey (insert_price ⟨"d", "USD", "XAU", 3, some 9, "s", 8⟩ ([] : List (MRow Nat)))
        (keyOf (⟨"d", "USD", "XAU", 3, some 9, "s", 8⟩ : MRow Nat)) =
        some ⟨"d", "USD", "XAU", 3, some 9, "s", 8⟩ ∧
      (∀ k, k ≠ keyOf (⟨"d", "USD", "XAU", 3, some 9, "s", 8⟩ : MRow Nat) →
        lookupKey (insert_price ⟨"d", "USD", "XAU", 3, some 9, "s", 8⟩ ([] : List (MRow Nat))) k =
          lookupKey ([] : List (MRow Nat)) k) ∧
      (lookupKey ([] : List (MRow Nat))
          (keyOf (⟨"d", "USD", "XAU", 3, some 9, "s", 8⟩ : MRow Nat)) ≠ none →
        (insert_price ⟨"d", "USD", "XAU", 3, some 9, "s", 8⟩ ([] : List (MRow Nat))).length =
          ([] : List (MRow Nat)).length)) :=
  ⟨List.Pairwise.nil,
    insert_price_upsert ([] : List (MRow Nat)) ⟨"d", "USD", "XAU", 3, some 9, "s", 8⟩
      [⟨"d", "USD", "XAU", 2, none, "s", 7⟩, ⟨"d", "USD", "XAU", 3, some 9, "s", 8⟩]
      List.Pairwise.nil⟩

end UpsertProofs

section CacheProofs

variable {ρ : Type}

lemma pyUpper_USD : pyUpper ("USD") = "USD" := by decide

lemma pyUpper_XAU : pyUpper ("XAU") = "XAU" := by decide

/-- C9: `insert_price` followed by `get_cached_price` on the same key
returns exactly `(rate, raw, xauusd)`, and a `fetch_one` call with the
cache enabled that finds a cached row issues no API request. -/
theorem cache_round_trip (d b s src : String) (rate : ℚ) (xau : Option ℚ) (raw : ρ)
    (t : List (MRow ρ)) (t2 : List (MRow ApiData)) (resp : HttpResponse) :
    get_cached_price (insert_price ⟨d, b, s, rate, xau, src, raw⟩ t) (d, b, s, src) =
      some (rate, raw, xau) ∧
    (∀ c, get_cached_price (fill_missing_xauusd t2) (d, b, s, src) = some c →
      (fetch_one true true t2 d b s src resp).apiCalled = false) := by
  constructor
  · simp [get_cached_price, insert_price, lookupKey, keyOf]
  · intro c hc
    obtain ⟨rate0, data0, xau0⟩ := c
    simp only [fetch_one, Bool.and_self, if_true, hc]
    split <;> rfl

/-- Witness for C9 at a concrete row and single-row table. -/
theorem cache_round_trip_witness :
    get_cached_price
        (insert_price ⟨"2026-01-30", "USD", "XAU", 1 / 2, some 2, "metalpriceapi", 5⟩
          ([] : List (MRow Nat)))
        ("2026-01-30", "USD", "XAU", "metalpriceapi") =
      some (1 / 2, 5, some 2) ∧
    ∀ c, get_cached_price
          (fill_missing_xauusd [⟨"2026-01-30", "USD", "XAU", 1 / 2, some 2, "metalpriceapi",
            (⟨some true, [("XAU", 1 / 2)]⟩ : ApiData)⟩])
          ("2026-01-30", "USD", "XAU", "metalpriceapi") = some c →
        (fetch_one true true
          [⟨"2026-01-30", "USD", "XAU", 1 / 2, some 2, "metalpriceapi",
            (⟨some true, [("XAU", 1 / 2)]⟩ : ApiData)⟩]
          "2026-01-30" "USD" "XAU" "metalpriceapi" (.ok ⟨some true, []⟩)).apiCalled = false :=
  cache_round_trip "2026-01-30" "USD" "XAU" "metalpriceapi" (1 / 2) (some 2) 5
    ([] : List (MRow Nat))
    [⟨"2026-01-30", "USD", "XAU", 1 / 2, some 2, "metalpriceapi",
      (⟨some true, [("XAU", 1 / 2)]⟩ : ApiData)⟩]
    (.ok ⟨some true, []⟩)

/-- C3: `fill_missing_xauusd` maps `fillRow` over the table, and the
derivation is the reciprocal: a USD/XAU row with NULL xauusd and
nonzero rate gets `1/rate`, an XAU/USD row with NULL xauusd gets the
rate itself, any other row is unchanged; `fetch_one` derives the same
values for a freshly fetched rate. -/
theorem xauusd_reciprocal_derivation (r : MRow ρ) (t : List (MRow ρ)) (rate : ℚ) :
    fill_missing_xauusd t = t.map fillRow ∧
    (r.base = "USD" → r.symbol = "XAU" → r.xauusd = none → r.rate ≠ 0 →
      (fillRow r).xauusd = some (1 / r.rate)) ∧
    (r.base = "XAU" → r.symbol = "USD" → r.xauusd = none →
      (fillRow r).xauusd = some r.rate) ∧
    (r.xauusd ≠ none → fillRow r = r) ∧
    (¬(r.base = "USD" ∧ r.symbol = "XAU") → ¬(r.base = "XAU" ∧ r.symbol = "USD") →
      fillRow r = r) ∧
    (rate ≠ 0 → computeXauusd ("USD") ("XAU") rate = some (1 / rate)) ∧
    computeXauusd ("XAU") ("USD") rate = some rate := by
  refine ⟨rfl, ?_, ?_, ?_, ?_, ?_, ?_⟩
  · intro hb hsym hx hr
    simp [fillRow, hb, hsym, hx, hr]
  · intro hb hsym hx
    simp [fillRow, hb, hsym, hx]
  · intro hx
    simp [fillRow, hx]
  · intro h1 h2
    simp [fillRow, h1, h2]
  · intro hr
    simp [computeXauusd, pyUpper_USD, pyUpper_XAU, hr]
  · simp [computeXauusd, pyUpper_USD, pyUpper_XAU]

/-- Witness for C3 at a concrete USD/XAU row with rate 1/2. -/
theorem xauusd_reciprocal_derivation_witness :
    (fillRow (⟨"d", "USD", "XAU", 1 / 2, none, "s", 3⟩ : MRow Nat)).xauusd = some 2 ∧
    (fillRow (⟨"d", "XAU", "USD", 7, none, "s", 3⟩ : MRow Nat)).xauusd = some 7 ∧
    computeXauusd ("USD") ("XAU") (1 / 2) = some 2 := by
  have h1 := (xauusd_reciprocal_derivation (⟨"d", "USD", "XAU", 1 / 2, none, "s", 3⟩ : MRow Nat)
    [] (1 / 2)).2.1 rfl rfl rfl (by norm_num)
  have h2 := (xauusd_reciprocal_derivation (⟨"d", "XAU", "USD", 7, none, "s", 3⟩ : MRow Nat)
    [] (1 / 2)).2.2.1 rfl rfl rfl
  have h3 := (xauusd_reciprocal_derivation (⟨"d", "USD", "XAU", 1 / 2, none, "s", 3⟩ : MRow Nat)
    [] (1 / 2)).2.2.2.2.2.1 (by norm_num)
  refine ⟨?_, ?_, ?_⟩
  · rw [h1]; norm_num
  · simpa using h2
  · rw [h3]; norm_num

end CacheProofs

section ErrorProofs

variable {ρ : Type}

lemma keyOf_fillRow (r : MRow ρ) : keyOf (fillRow r) = keyOf r := by
  simp only [fillRow]
  split
  · split
    · rfl
    · split <;> rfl
  · rfl

lemma lookupKey_fill (t : List (MRow ρ)) (k : String × String × String × String) :
    lookupKey (fill_missing_xauusd t) k = (lookupKey t k).map fillRow := by
  induction t with
  | nil => rfl
  | cons a rest ih =>
    show lookupKey (fillRow a :: fill_missing_xauusd rest) k = _
    unfold lookupKey
    rw [keyOf_fillRow]
    by_cases he : keyOf a = k
    · simp [he]
    · simp [he, ih]

/-- C5 (amended): whenever the data `fetch_price` hands back carries
`success=false` — which happens for every HTTPError whose body is
empty, fails to parse, or itself carries `success=false` — and the
cache did not supply the data, `fetch_one` prints the error, returns
False, and the row stored under `(date, base, symbol, source)` is
unchanged (in particular, no row is inserted or replaced for that
key). -/
theorem fetch_error_no_insert (useDb useCache : Bool) (t : List (MRow ApiData))
    (dstr b s src : String) (resp : HttpResponse)
    (herr : getSuccess (fetch_price resp) = false)
    (hmiss : (useDb && useCache) = false ∨
      lookupKey (fill_missing_xauusd t) (dstr, b, s, src) = none) :
    (fetch_one useDb useCache t dstr b s src resp).ok = false ∧
    (fetch_one useDb useCache t dstr b s src resp).errorPrinted = true ∧
    lookupKey (fetch_one useDb useCache t dstr b s src resp).table (dstr, b, s, src) =
      lookupKey t (dstr, b, s, src) := by
  cases hc : (useDb && useCache) with
  | false =>
    simp only [fetch_one, hc, if_false]
    simp [herr]
  | true =>
    have hnone : lookupKey (fill_missing_xauusd t) (dstr, b, s, src) = none := by
      rcases hmiss with h | h
      · rw [hc] at h; exact absurd h (by simp)
      · exact h
    have hcache : get_cached_price (fill_missing_xauusd t) (dstr, b, s, src) = none := by
      simp [get_cached_price, hnone]
    simp only [fetch_one, hc, if_true, hcache]
    refine ⟨by simp [herr], by simp [herr], ?_⟩
    simp only [herr, if_true]
    rw [lookupKey_fill] at hnone ⊢
    rcases hl : lookupKey t (dstr, b, s, src) with _ | row
    · simp [hl]
    · rw [hl] at hnone; simp at hnone

/-- Witness for the amended C5: an HTTPError with an empty body against
an empty table, cache enabled. -/
theorem fetch_error_no_insert_witness :
    getSuccess (fetch_price (.httpError 500 .empty)) = false ∧
    ((fetch_one true true [] "2026-01-30" "USD" "XAU" "metalpriceapi"
        (.httpError 500 .empty)).ok = false ∧
      (fetch_one true true [] "2026-01-30" "USD" "XAU" "metalpriceapi"
        (.httpError 500 .empty)).errorPrinted = true ∧
      lookupKey (fetch_one true true [] "2026-01-30" "USD" "XAU" "metalpriceapi"
          (.httpError 500 .empty)).table ("2026-01-30", "USD", "XAU", "metalpriceapi") =
        lookupKey [] ("2026-01-30", "USD", "XAU", "metalpriceapi")) :=
  ⟨rfl, fetch_error_no_insert true true [] "2026-01-30" "USD" "XAU" "metalpriceapi"
    (.httpError 500 .empty) rfl (Or.inr rfl)⟩

/-- Counterexample to C5 as stated: an HTTPError whose body parses as
JSON without a `success` field but with a rate is treated as a normal
response — `fetch_one` returns True and inserts a row for the key. -/
theorem fetch_error_no_insert_counterexample :
    (fetch_one true true [] "2026-01-30" "USD" "XAU" "metalpriceapi"
      (.httpError 500 (.parsed ⟨none, [("XAU", 1 / 2)]⟩))).ok = true ∧
    (fetch_one true true [] "2026-01-30" "USD" "XAU" "metalpriceapi"
      (.httpError 500 (.parsed ⟨none, [("XAU", 1 / 2)]⟩))).errorPrinted = false ∧
    lookupKey (fetch_one true true [] "2026-01-30" "USD" "XAU" "metalpriceapi"
        (.httpError 500 (.parsed ⟨none, [("XAU", 1 / 2)]⟩))).table
      ("2026-01-30", "USD", "XAU", "metalpriceapi") ≠ none := by
  refine ⟨rfl, rfl, ?_⟩
  norm_num [fetch_one, fetch_price, getSuccess, extract_rate, lookupStr,
    get_cached_price, fill_missing_xauusd, lookupKey, insert_price, keyOf]
  simp

end ErrorProofs

section UpdateProofs

lemma run_range_mem (s e x : Int) : x ∈ run_range_dates s e ↔ s ≤ x ∧ x ≤ e := by
  unfold run_range_dates
  split
  · simp; omega
  · simp only [List.mem_map, List.mem_range]
    constructor
    · rintro ⟨i, hi, rfl⟩; omega
    · intro ⟨h1, h2⟩
      refine ⟨(x - s).toNat, by omega, by omega⟩

lemma run_range_chain (s e : Int) :
    (run_range_dates s e).Chain' (fun a c => c = a + 1) := by
  unfold run_range_dates
  split
  · exact List.chain'_nil
  · rw [List.chain'_map]
    rcases hn : (e + 1 - s).toNat with _ | m
    · simp
    · rw [List.chain'_range_succ]
      intro i _
      push_cast
      ring

/-- C8: for every database state, once yesterday has reached MIN_DATE
the driver requests exactly the dates from the day after the latest
stored one (MIN_DATE for an absent/empty database) through yesterday,
consecutively in ascending order, and requests nothing when that range
is empty. -/
theorem update_requests_gap_free (db : List Int) (today : Int)
    (hmin : MIN_DATE ≤ today - 1) :
    (∀ x, x ∈ update_requests db today ↔ updStart db ≤ x ∧ x ≤ today - 1) ∧
    (update_requests db today).Chain' (fun a c => c = a + 1) ∧
    (today - 1 < updStart db → update_requests db today = []) := by
  unfold update_requests
  rw [if_neg (by omega)]
  by_cases hs : updStart db ≤ today - 1
  · rw [if_pos hs]
    exact ⟨fun x => run_range_mem _ _ x, run_range_chain _ _, fun h => absurd hs (by omega)⟩
  · rw [if_neg hs]
    exact ⟨fun x => by simp; omega, List.chain'_nil, fun _ => rfl⟩

/-- Witness for C8: latest stored day 739620, today 739624 — the driver
requests 739621 through 739623. -/
theorem update_requests_gap_free_witness :
    MIN_DATE ≤ (739624 : Int) - 1 ∧
    ((∀ x, x ∈ update_requests [739620] 739624 ↔
        updStart [739620] ≤ x ∧ x ≤ (739624 : Int) - 1) ∧
      (update_requests [739620] 739624).Chain' (fun a c => c = a + 1) ∧
      ((739624 : Int) - 1 < updStart [739620] → update_requests [739620] 739624 = [])) :=
  ⟨by norm_num [MIN_DATE], update_requests_gap_free [739620] 739624 (by norm_num [MIN_DATE])⟩

end UpdateProofs

section GsplnProofs

/-- The `usd_cache` dictionary only ever records answers the NBP API
itself gave (it is filled exclusively by `fetch_usdpln`). -/
def CoherentCache (nbp : Int → Option ℚ) (cache : UsdCache) : Prop :=
  ∀ p ∈ cache, p.2 = nbp p.1

lemma cacheLookup_coherent {nbp : Int → Option ℚ} {cache : UsdCache}
    (h : CoherentCache nbp cache) (d : Int) (v : Option ℚ)
    (hl : cacheLookup cache d = some v) : v = nbp d := by
  induction cache with
  | nil => simp [cacheLookup] at hl
  | cons p rest ih =>
    obtain ⟨d0, v0⟩ := p
    simp only [cacheLookup] at hl
    by_cases he : d0 = d
    · rw [if_pos he] at hl
      have hv : v0 = v := by simpa using hl
      have hco : v0 = nbp d0 := h (d0, v0) (List.mem_cons_self _ _)
      subst he
      rw [← hv]
      exact hco
    · rw [if_neg he] at hl
      exact ih (fun q hq => h q (List.mem_cons_of_mem _ hq)) hl

lemma fetch_usdpln_fst {nbp : Int → Option ℚ} {cache : UsdCache}
    (h : CoherentCache nbp cache) (d : Int) :
    (fetch_usdpln nbp d cache).1 = nbp d := by
  unfold fetch_usdpln
  rcases hl : cacheLookup cache d with _ | v
  · rfl
  · simpa using cacheLookup_coherent h d v hl

lemma fetch_usdpln_coherent {nbp : Int → Option ℚ} {cache : UsdCache}
    (h : CoherentCache nbp cache) (d : Int) :
    CoherentCache nbp (fetch_usdpln nbp d cache).2 := by
  unfold fetch_usdpln
  rcases cacheLookup cache d with _ | v
  · intro p hp
    rcases List.mem_cons.1 hp with rfl | hp2
    · rfl
    · exact h p hp2
  · exact h

lemma fallbackLoop_spec {nbp : Int → Option ℚ} :
    ∀ (n : ℕ) (back : Int) (cache : UsdCache), CoherentCache nbp cache →
      (fallbackLoop nbp n back cache).1 =
        ((List.range n).map (fun i : ℕ => back - ((i : Int) + 1))).findSome? nbp := by
  intro n
  induction n with
  | zero => intro back cache _; rfl
  | succ m ih =>
    intro back cache h
    rcases hf : fetch_usdpln nbp (back - 1) cache with ⟨v, c1⟩
    have hv : v = nbp (back - 1) := by
      rw [← fetch_usdpln_fst h (back - 1), hf]
    have hc1 : CoherentCache nbp c1 := by
      have := fetch_usdpln_coherent h (back - 1)
      rwa [hf] at this
    simp only [fallbackLoop]
    rw [hf, List.range_succ_eq_map, List.map_cons, List.map_map]
    have hhead : back - ((Nat.cast (0 : ℕ) : Int) + 1) = back - 1 := by push_cast; ring
    cases v with
    | none =>
      simp only [List.findSome?_cons, hhead, ← hv]
      rw [ih (back - 1) c1 hc1]
      congr 1
      apply List.map_congr_left
      intro i _
      simp only [Function.comp_apply]
      push_cast
      ring
    | some r =>
      simp only [List.findSome?_cons, hhead, ← hv]

lemma fetchWithFallback_miss {nbp : Int → Option ℚ} {cache : UsdCache} {d : Int}
    (h : CoherentCache nbp cache) (hmiss : nbp d = none) :
    (fetchWithFallback nbp d cache).1 =
      ((List.range 7).map (fun i : ℕ => d - ((i : Int) + 1))).findSome? nbp := by
  unfold fetchWithFallback
  rcases hf : fetch_usdpln nbp d cache with ⟨v, c1⟩
  have hv : v = none := by
    rw [← hmiss, ← fetch_usdpln_fst h d, hf]
  have hc1 : CoherentCache nbp c1 := by
    have := fetch_usdpln_coherent h d
    rwa [hf] at this
  subst hv
  exact fallbackLoop_spec 7 d c1 hc1

lemma fallbackLoop_coherent {nbp : Int → Option ℚ} :
    ∀ (n : ℕ) (back : Int) (cache : UsdCache), CoherentCache nbp cache →
      CoherentCache nbp (fallbackLoop nbp n back cache).2 := by
  intro n
  induction n with
  | zero => intro back cache h; exact h
  | succ m ih =>
    intro back cache h
    have hco := fetch_usdpln_coherent h (back - 1)
    rcases hf : fetch_usdpln nbp (back - 1) cache with ⟨v, c1⟩
    rw [hf] at hco
    simp only [fallbackLoop, hf]
    cases v with
    | none => exact ih (back - 1) c1 hco
    | some r => exact hco

lemma fetchWithFallback_coherent {nbp : Int → Option ℚ} (cache : UsdCache) (d : Int)
    (h : CoherentCache nbp cache) :
    CoherentCache nbp (fetchWithFallback nbp d cache).2 := by
  have hco := fetch_usdpln_coherent h d
  rcases hf : fetch_usdpln nbp d cache with ⟨v, c1⟩
  rw [hf] at hco
  simp only [fetchWithFallback, hf]
  cases v with
  | none => exact fallbackLoop_coherent 7 d c1 hco
  | some r => exact hco

lemma processRow_coherent {nbp : Int → Option ℚ}
    (existing : Int → Option ℚ × Option ℚ × Option ℚ) {cache : UsdCache}
    (d : Int) (g s : ℚ) (h : CoherentCache nbp cache) :
    CoherentCache nbp (processRow nbp existing cache d g s).2 := by
  unfold processRow
  by_cases hs : s = 0
  · rw [if_pos hs]; exact h
  · rw [if_neg hs]
    by_cases hinc : (existing d).1 = none ∨ (existing d).2.1 = none ∨ (existing d).2.2 = none
    · rw [if_pos hinc]
      have hco := fetchWithFallback_coherent cache d h
      rcases hf : fetchWithFallback nbp d cache with ⟨v, c1⟩
      rw [hf] at hco
      cases v with
      | none => exact hco
      | some u => exact hco
    · rw [if_neg hinc]; exact h

/-- The `usd_cache` threaded through the whole `write_gspln_db` loop
stays coherent with the NBP API; in particular, starting from the empty
cache, every per-date `processRow` step runs on a coherent cache. -/
lemma write_gspln_rows_coherent {nbp : Int → Option ℚ}
    {existing : Int → Option ℚ × Option ℚ × Option ℚ} :
    ∀ (input : List (Int × ℚ × ℚ)) (cache : UsdCache), CoherentCache nbp cache →
      CoherentCache nbp (write_gspln_rows nbp existing input cache).2 := by
  intro input
  induction input with
  | nil => intro cache h; exact h
  | cons trip rest ih =>
    obtain ⟨d, g, s⟩ := trip
    intro cache h
    have hco := processRow_coherent existing d g s h
    unfold write_gspln_rows
    rcases hp : processRow nbp existing cache d g s with ⟨ropt, c1⟩
    rw [hp] at hco
    cases ropt with
    | none => exact ih c1 hco
    | some row =>
      have hrest := ih c1 hco
      rcases hw : write_gspln_rows nbp existing rest c1 with ⟨rows, c2⟩
      rw [hw] at hrest
      simp only [hw]
      exact hrest

/-- C1: for a date `d` whose PLN columns must be fetched and for which
the NBP API has no fixing, `write_gspln_db` falls back through exactly
the seven consecutive prior days `d-1 .. d-7` and uses the first fixing
found there; if all of them are missing too, the row is built with
usdpln, xaupln and xagpln all NULL. -/
theorem nbp_seven_day_fallback (nbp : Int → Option ℚ)
    (existing : Int → Option ℚ × Option ℚ × Option ℚ) (cache : UsdCache)
    (d : Int) (g s : ℚ)
    (hcoh : CoherentCache nbp cache) (hs : s ≠ 0)
    (hinc : (existing d).1 = none ∨ (existing d).2.1 = none ∨ (existing d).2.2 = none)
    (hmiss : nbp d = none) :
    (processRow nbp existing cache d g s).1 =
      some ⟨d, g, s, g / s,
        ((List.range 7).map (fun i : ℕ => d - ((i : Int) + 1))).findSome? nbp,
        (((List.range 7).map (fun i : ℕ => d - ((i : Int) + 1))).findSome? nbp).map
          (fun u => g * u),
        (((List.range 7).map (fun i : ℕ => d - ((i : Int) + 1))).findSome? nbp).map
          (fun u => s * u)⟩ := by
  unfold processRow
  rw [if_neg hs, if_pos hinc]
  have hspec := fetchWithFallback_miss hcoh hmiss
  rcases hr : fetchWithFallback nbp d cache with ⟨v, c1⟩
  rw [hr] at hspec
  replace hspec : v = ((List.range 7).map (fun i : ℕ => d - ((i : Int) + 1))).findSome? nbp :=
    hspec
  cases v with
  | none =>
    rw [← hspec]
    rfl
  | some u =>
    rw [← hspec]
    rfl

/-- Witness for C1: an NBP oracle with no fixing anywhere, an empty
cache and an empty gsp table at date 0. -/
theorem nbp_seven_day_fallback_witness :
    CoherentCache (fun _ => none) [] ∧ (1 : ℚ) ≠ 0 ∧
    (((fun _ => (none, none, none)) (0 : Int) :
        Option ℚ × Option ℚ × Option ℚ).1 = none ∨
      ((fun _ => (none, none, none)) (0 : Int) :
        Option ℚ × Option ℚ × Option ℚ).2.1 = none ∨
      ((fun _ => (none, none, none)) (0 : Int) :
        Option ℚ × Option ℚ × Option ℚ).2.2 = none) ∧
    (fun _ => (none : Option ℚ)) (0 : Int) = none ∧
    (processRow (fun _ => none) (fun _ => (none, none, none)) [] 0 1 1).1 =
      some ⟨0, 1, 1, 1 / 1,
        ((List.range 7).map (fun i : ℕ => (0 : Int) - ((i : Int) + 1))).findSome?
          (fun _ => none),
        (((List.range 7).map (fun i : ℕ => (0 : Int) - ((i : Int) + 1))).findSome?
          (fun _ => (none : Option ℚ))).map (fun u => 1 * u),
        (((List.range 7).map (fun i : ℕ => (0 : Int) - ((i : Int) + 1))).findSome?
          (fun _ => (none : Option ℚ))).map (fun u => 1 * u)⟩ :=
  ⟨fun _ hp => absurd hp (List.not_mem_nil _), by norm_num, Or.inl rfl, rfl,
    nbp_seven_day_fallback (fun _ => none) (fun _ => (none, none, none)) [] 0 1 1
      (fun _ hp => absurd hp (List.not_mem_nil _)) (by norm_num) (Or.inl rfl) rfl⟩

lemma processRow_some_spec {nbp : Int → Option ℚ}
    {existing : Int → Option ℚ × Option ℚ × Option ℚ} {cache : UsdCache}
    {d : Int} {g s : ℚ} {row : GspRow} {c1 : UsdCache}
    (h : processRow nbp existing cache d g s = (some row, c1)) :
    row.date = d ∧ row.xauusd = g ∧ row.xagusd = s ∧ s ≠ 0 ∧ row.gsr = g / s ∧
    (((existing d).1 = none ∨ (existing d).2.1 = none ∨ (existing d).2.2 = none) →
      ∀ u, row.usdpln = some u →
        row.xaupln = some (g * u) ∧ row.xagpln = some (s * u)) := by
  unfold processRow at h
  by_cases hs : s = 0
  · rw [if_pos hs] at h
    exact absurd (congrArg Prod.fst h) (by simp)
  · rw [if_neg hs] at h
    by_cases hinc : (existing d).1 = none ∨ (existing d).2.1 = none ∨ (existing d).2.2 = none
    · rw [if_pos hinc] at h
      rcases hfr : fetchWithFallback nbp d cache with ⟨v, c0⟩
      rw [hfr] at h
      cases v with
      | none =>
        have hrow := congrArg Prod.fst h
        simp only [Option.some.injEq] at hrow
        subst hrow
        exact ⟨rfl, rfl, rfl, hs, rfl, fun _ u hu => by simp at hu⟩
      | some u0 =>
        have hrow := congrArg Prod.fst h
        simp only [Option.some.injEq] at hrow
        subst hrow
        refine ⟨rfl, rfl, rfl, hs, rfl, fun _ u hu => ?_⟩
        simp only [Option.some.injEq] at hu
        subst hu
        exact ⟨rfl, rfl⟩
    · rw [if_neg hinc] at h
      have hrow := congrArg Prod.fst h
      simp only [Option.some.injEq] at hrow
      subst hrow
      exact ⟨rfl, rfl, rfl, hs, rfl, fun hc => absurd hc hinc⟩

/-- C4: every row `write_gspln_db` builds for the gsp table has a
nonzero silver price (zero-silver dates are skipped), its gsr equals
xauusd / xagusd, and whenever its PLN columns were filled from a fetched
fixing `u`, xaupln = xauusd * u and xagpln = xagusd * u. -/
theorem gsp_row_derivations (nbp : Int → Option ℚ)
    (existing : Int → Option ℚ × Option ℚ × Option ℚ)
    (input : List (Int × ℚ × ℚ)) (cache : UsdCache) :
    ∀ row ∈ (write_gspln_rows nbp existing input cache).1,
      row.xagusd ≠ 0 ∧ row.gsr = row.xauusd / row.xagusd ∧
      (((existing row.date).1 = none ∨ (existing row.date).2.1 = none ∨
          (existing row.date).2.2 = none) →
        ∀ u, row.usdpln = some u →
          row.xaupln = some (row.xauusd * u) ∧ row.xagpln = some (row.xagusd * u)) := by
  induction input generalizing cache with
  | nil =>
    intro row hrow
    simp [write_gspln_rows] at hrow
  | cons trip rest ih =>
    obtain ⟨d, g, s⟩ := trip
    intro row hrow
    unfold write_gspln_rows at hrow
    rcases hp : processRow nbp existing cache d g s with ⟨ropt, c1⟩
    rw [hp] at hrow
    rcases ropt with _ | row0
    · exact ih c1 row hrow
    · simp only [List.mem_cons] at hrow
      rcases hrow with rfl | hrow
      · obtain ⟨hd, hg, hs', hsnz, hgsr, himp⟩ := processRow_some_spec hp
        refine ⟨by rw [hs']; exact hsnz, by rw [hgsr, hg, hs'], ?_⟩
        rw [hd, hg, hs']
        exact himp
      · exact ih c1 row hrow

/-- Witness for C4: one joined date with gold 4, silver 2 and an NBP
fixing of 5, giving gsr 2, xaupln 20 and xagpln 10. -/
theorem gsp_row_derivations_witness :
    (⟨0, 4, 2, 2, some 5, some 20, some 10⟩ : GspRow) ∈
      (write_gspln_rows (fun _ => some 5) (fun _ => (none, none, none))
        [(0, 4, 2)] []).1 ∧
    (2 : ℚ) ≠ 0 ∧ (2 : ℚ) = 4 / 2 ∧
    (some 20 : Option ℚ) = some (4 * 5) ∧ (some 10 : Option ℚ) = some (2 * 5) := by
  have hmem : (⟨0, 4, 2, 2, some 5, some 20, some 10⟩ : GspRow) ∈
      (write_gspln_rows (fun _ => some 5) (fun _ => (none, none, none))
        [(0, 4, 2)] []).1 := by
    norm_num [write_gspln_rows, processRow, fetchWithFallback, fetch_usdpln, cacheLookup]
  have h := gsp_row_derivations (fun _ => some 5) (fun _ => (none, none, none)) [(0, 4, 2)] []
    ⟨0, 4, 2, 2, some 5, some 20, some 10⟩ hmem
  exact ⟨hmem, h.1, h.2.1, (h.2.2 (Or.inl rfl) 5 rfl).1, (h.2.2 (Or.inl rfl) 5 rfl).2⟩

end GsplnProofs

section MaskProofs

lemma isEmpty_false_of_ne_nil {key : List Char} (hne : key ≠ []) : key.isEmpty = false := by
  cases key with
  | nil => exact absurd rfl hne
  | cons a as => rfl

lemma occursIn_star_cons {key : List Char} (hne : key ≠ []) (hstar : '*' ∉ key)
    (t : List Char) : occursIn key ('*' :: t) = occursIn key t := by
  cases key with
  | nil => exact absurd rfl hne
  | cons k ks =>
    have hk : k ≠ '*' := fun h => hstar (by rw [← h]; exact List.mem_cons_self k ks)
    simp only [occursIn, prefChk]
    rw [beq_eq_false_iff_ne.2 hk]
    simp

lemma occursIn_stars_append {key : List Char} (hne : key ≠ []) (hstar : '*' ∉ key)
    (t : List Char) : occursIn key (starsMask ++ t) = occursIn key t := by
  show occursIn key ('*' :: '*' :: '*' :: '*' :: t) = occursIn key t
  rw [occursIn_star_cons hne hstar, occursIn_star_cons hne hstar,
    occursIn_star_cons hne hstar, occursIn_star_cons hne hstar]

lemma prefChk_replaceAllF {key : List Char} :
    ∀ (fuel : ℕ) (s u : List Char), u ≠ [] → '*' ∉ u →
      prefChk u (replaceAllF key starsMask fuel s) = true → prefChk u s = true := by
  intro fuel
  induction fuel with
  | zero => intro s u _ _ h; exact h
  | succ m ih =>
    intro s u hne hstar h
    cases s with
    | nil =>
      cases u with
      | nil => exact absurd rfl hne
      | cons a as => simp [replaceAllF, prefChk] at h
    | cons c rest =>
      simp only [replaceAllF] at h
      by_cases hp : prefChk key (c :: rest) = true
      · rw [if_pos hp] at h
        cases u with
        | nil => exact absurd rfl hne
        | cons a as =>
          have ha : a ≠ '*' := fun he => hstar (by rw [← he]; exact List.mem_cons_self a as)
          simp only [starsMask, List.cons_append, prefChk, Bool.and_eq_true, beq_iff_eq] at h
          exact absurd h.1 ha
      · rw [if_neg hp] at h
        cases u with
        | nil => exact absurd rfl hne
        | cons a as =>
          simp only [prefChk, Bool.and_eq_true] at h ⊢
          refine ⟨h.1, ?_⟩
          by_cases has : as = []
          · subst has; rfl
          · exact ih rest as has (fun hm => hstar (List.mem_cons_of_mem _ hm)) h.2

lemma occursIn_replaceAllF {key : List Char} (hne : key ≠ []) (hstar : '*' ∉ key) :
    ∀ (fuel : ℕ) (s : List Char), s.length ≤ fuel →
      occursIn key (replaceAllF key starsMask fuel s) = false := by
  intro fuel
  induction fuel with
  | zero =>
    intro s hs
    obtain rfl : s = [] := List.length_eq_zero.1 (Nat.le_zero.1 hs)
    show key.isEmpty = false
    exact isEmpty_false_of_ne_nil hne
  | succ m ih =>
    intro s hs
    cases s with
    | nil =>
      show key.isEmpty = false
      exact isEmpty_false_of_ne_nil hne
    | cons c rest =>
      simp only [replaceAllF]
      by_cases hp : prefChk key (c :: rest) = true
      · rw [if_pos hp, occursIn_stars_append hne hstar]
        apply ih
        have hkl : 1 ≤ key.length := by
          cases key with
          | nil => exact absurd rfl hne
          | cons a as => simp
        simp only [List.length_drop, List.length_cons]
        simp only [List.length_cons] at hs
        omega
      · rw [if_neg hp]
        have h2 := ih rest (by simpa using Nat.le_of_succ_le_succ hs)
        simp only [occursIn, h2, Bool.or_false]
        cases hpc : prefChk key (c :: replaceAllF key starsMask m rest) with
        | false => rfl
        | true =>
          have hout : prefChk key (replaceAllF key starsMask (m + 1) (c :: rest)) = true := by
            simp only [replaceAllF, if_neg hp]
            exact hpc
          exact absurd (prefChk_replaceAllF (m + 1) (c :: rest) key hne hstar hout) hp

/-- C10 (amended): for every nonempty API key that contains no `*`
character (any percent-encodable key does, since `quote_plus` output is
`*`-free), the string printed by `fetch_price` — `mask_key` of the URL
— contains no occurrence of the key; every occurrence is replaced by
`"****"`. -/
theorem mask_key_hides_key (apiKey url : List Char) (hne : apiKey ≠ [])
    (hstar : '*' ∉ apiKey) :
    occursIn apiKey (mask_key apiKey url) = false := by
  unfold mask_key replaceAll
  rw [if_neg (by rw [isEmpty_false_of_ne_nil hne]; exact Bool.false_ne_true)]
  exact occursIn_replaceAllF hne hstar url.length url le_rfl

/-- Witness for the amended C10 at the key "abc" and the URL built for
date 2026-01-30, base USD, symbol XAU. -/
theorem mask_key_hides_key_witness :
    ("abc".toList ≠ [] ∧ '*' ∉ "abc".toList) ∧
    occursIn ("abc".toList)
      (mask_key ("abc".toList)
        (build_url ("abc".toList) ("2026-01-30".toList) ("USD".toList) ("XAU".toList))) =
      false :=
  ⟨⟨by decide, by decide⟩, mask_key_hides_key _ _ (by decide) (by decide)⟩

/-- Counterexample to C10 as stated: the key `*x` is nonempty and not a
substring of `"****"`, yet masking the URL built for the date string
`**xx` leaves an occurrence of the key (`.../v1/**xx?...` becomes
`.../v1/*****x?...`, which contains `*x`). -/
theorem mask_key_counterexample :
    ("*x".toList ≠ [] ∧ occursIn ("*x".toList) ("****".toList) = false) ∧
    occursIn ("*x".toList)
      (mask_key ("*x".toList)
        (build_url ("*x".toList) ("**xx".toList) ("USD".toList) ("XAU".toList))) = true :=
  ⟨⟨by decide, by decide⟩, by decide⟩

end MaskProofs
